import Mathlib

/-!
Shallow embedding of `src/ev_epoll.c` (the epoll-backed FD polling backend).

The four `fd_set` bit arrays (`StaticReadEvent`, `StaticWriteEvent`,
`PrevReadEvent`, `PrevWriteEvent`) are modelled as bit functions
`Nat → Bool`; the C code scans them as arrays of 32-bit `int` words
(`INTBITS = 5`, so a word holds `1 << 5 = 32` descriptor bits), which we
model as the bit range `[fds*32, fds*32+32)` for word index `fds`.
Kernel interactions (`epoll_ctl`, `epoll_wait`, callbacks, allocations)
are reified as traces / oracles so the control flow of the C code can be
reproduced exactly and its effects observed.
-/

namespace EvEpoll

/-- A bit array indexed by descriptor number (one `fd_set` of the C code). -/
abbrev FdSetT := Nat → Bool

/-- The direction constants `DIR_RD` / `DIR_WR` of the surrounding code. -/
inductive Dir where
  | DIR_RD
  | DIR_WR
deriving DecidableEq

/-- The four static bit arrays of `ev_epoll.c`: desired interest
(`StaticReadEvent`, `StaticWriteEvent`) and last-synchronized interest
(`PrevReadEvent`, `PrevWriteEvent`). -/
structure EvState where
  staticRead : FdSetT
  staticWrite : FdSetT
  prevRead : FdSetT
  prevWrite : FdSetT

/-- Select the desired-interest bit array for a direction, as done by the
`if (dir == DIR_RD) ev = StaticReadEvent; else ev = StaticWriteEvent;`
prologue shared by the accessors. -/
def dirSet (s : EvState) (dir : Dir) : FdSetT :=
  match dir with
  | .DIR_RD => s.staticRead
  | .DIR_WR => s.staticWrite

/-- Replace the desired-interest bit array for a direction. -/
def setDir (s : EvState) (dir : Dir) (f : FdSetT) : EvState :=
  match dir with
  | .DIR_RD => { s with staticRead := f }
  | .DIR_WR => { s with staticWrite := f }

/-- C `__fd_isset`: `FD_ISSET(fd, ev)` on the desired bit array. -/
def __fd_isset (fd : Nat) (dir : Dir) (s : EvState) : Bool :=
  dirSet s dir fd

/-- C `__fd_set`: `FD_SET(fd, ev)` on the desired bit array. -/
def __fd_set (fd : Nat) (dir : Dir) (s : EvState) : EvState :=
  setDir s dir (Function.update (dirSet s dir) fd true)

/-- C `__fd_clr`: `FD_CLR(fd, ev)` on the desired bit array. -/
def __fd_clr (fd : Nat) (dir : Dir) (s : EvState) : EvState :=
  setDir s dir (Function.update (dirSet s dir) fd false)

/-- C `__fd_cond_s`: `ret = !FD_ISSET(fd, ev); if (ret) FD_SET(fd, ev);
return ret;`. -/
def __fd_cond_s (fd : Nat) (dir : Dir) (s : EvState) : Bool × EvState :=
  let ret := !(dirSet s dir fd)
  (ret, if ret then __fd_set fd dir s else s)

/-- C `__fd_cond_c`: `ret = FD_ISSET(fd, ev); if (ret) FD_CLR(fd, ev);
return ret;`. -/
def __fd_cond_c (fd : Nat) (dir : Dir) (s : EvState) : Bool × EvState :=
  let ret := dirSet s dir fd
  (ret, if ret then __fd_clr fd dir s else s)

/-- C `__fd_rem`: clears both directions of the desired bit arrays. -/
def __fd_rem (fd : Nat) (s : EvState) : EvState :=
  { s with
    staticRead := Function.update s.staticRead fd false
    staticWrite := Function.update s.staticWrite fd false }

/-- C `__fd_clo`: clears the descriptor from all four bit arrays. -/
def __fd_clo (fd : Nat) (s : EvState) : EvState :=
  { staticRead := Function.update s.staticRead fd false
    staticWrite := Function.update s.staticWrite fd false
    prevRead := Function.update s.prevRead fd false
    prevWrite := Function.update s.prevWrite fd false }

/-- Linux `EPOLLIN` flag (0x001). -/
def EPOLLIN : Nat := 1

/-- Linux `EPOLLOUT` flag (0x004). -/
def EPOLLOUT : Nat := 4

/-- Linux `EPOLLERR` flag (0x008). -/
def EPOLLERR : Nat := 8

/-- Linux `EPOLLHUP` flag (0x010). -/
def EPOLLHUP : Nat := 16

/-- The `epoll_ctl` operation requested for one descriptor. -/
inductive CtlOp where
  | ADD
  | MOD
  | DEL
deriving DecidableEq

/-- One recorded `epoll_ctl(epoll_fd, op, fd, &ev)` call issued by the
reconciliation phase; `events` is `ev.events`. -/
structure CtlCall where
  op : CtlOp
  fd : Nat
  events : Nat
deriving DecidableEq

/-- One record of the `epoll_events` buffer as filled by `epoll_wait`. -/
structure EpEvent where
  fd : Nat
  events : Nat
deriving DecidableEq

/-- The event mask `ev.events = (sr ? EPOLLIN : 0) | (sw ? EPOLLOUT : 0)`
built before an `epoll_ctl` call. -/
def evMask (sr sw : Bool) : Nat :=
  (if sr then EPOLLIN else 0) ||| (if sw then EPOLLOUT else 0)

/-- The per-descriptor registration decision of the inner reconciliation
loop: given previous bits `pr`, `pw` and desired bits `sr`, `sw` of one
descriptor, which `epoll_ctl` call (if any) the C code issues.  `cl fd`
models `fdtab[fd].state == FD_STCLOSE`; it guards only the DEL call. -/
def fdReg (cl : Nat → Bool) (fd : Nat) (pr pw sr sw : Bool) : Option CtlCall :=
  if !((sr != pr) || (sw != pw)) then
    none
  else if pr || pw then
    if sr || sw then
      some ⟨CtlOp.MOD, fd, evMask sr sw⟩
    else if cl fd then
      none
    else
      some ⟨CtlOp.DEL, fd, evMask sr sw⟩
  else
    some ⟨CtlOp.ADD, fd, evMask sr sw⟩

/-- The chunk test `(ro^rn) | (wo^wn)` of the outer loop: a 32-bit word of
the bitsets changed iff some bit position in it differs between desired
and previous state. -/
def chunkChanged (s : EvState) (fds : Nat) : Bool :=
  (List.range 32).any fun c =>
    (s.staticRead (fds * 32 + c) != s.prevRead (fds * 32 + c))
      || (s.staticWrite (fds * 32 + c) != s.prevWrite (fds * 32 + c))

/-- One iteration of the inner loop at bit position `c` of chunk `fds`:
the guard `fd < maxfd` of the loop condition, then the per-descriptor
registration decision on the four bits of `fd = fds*32 + c`. -/
def slotReg (cl : Nat → Bool) (maxfd fds : Nat) (s : EvState) (c : Nat) : Option CtlCall :=
  if fds * 32 + c < maxfd then
    fdReg cl (fds * 32 + c) (s.prevRead (fds * 32 + c)) (s.prevWrite (fds * 32 + c))
      (s.staticRead (fds * 32 + c)) (s.staticWrite (fds * 32 + c))
  else
    none

/-- The `epoll_ctl` calls issued by the inner loop over a changed chunk:
`for (count = 0, fd = fds << INTBITS; count < 32 && fd < maxfd; ...)`. -/
def chunkCalls (cl : Nat → Bool) (maxfd fds : Nat) (s : EvState) : List CtlCall :=
  (List.range 32).filterMap (slotReg cl maxfd fds s)

/-- The post-chunk copy `((int*)PrevReadEvent)[fds] = rn;
((int*)PrevWriteEvent)[fds] = wn;`: all 32 bits of the chunk word are
copied from the desired arrays into the previous arrays, including bit
positions at or beyond `maxfd`. -/
def copyChunk (s : EvState) (fds : Nat) : EvState :=
  { s with
    prevRead := fun i =>
      if fds * 32 ≤ i ∧ i < fds * 32 + 32 then s.staticRead i else s.prevRead i
    prevWrite := fun i =>
      if fds * 32 ≤ i ∧ i < fds * 32 + 32 then s.staticWrite i else s.prevWrite i }

/-- Processing of one chunk: if the four words are bit-identical the chunk
is skipped entirely; otherwise the inner loop issues its calls and the
desired words are copied into the previous words. -/
def doChunk (cl : Nat → Bool) (maxfd fds : Nat) (s : EvState) : List CtlCall × EvState :=
  if chunkChanged s fds then
    (chunkCalls cl maxfd fds s, copyChunk s fds)
  else
    ([], s)

/-- The word indices scanned by `for (fds = 0; (fds << INTBITS) < maxfd; fds++)`. -/
def chunkIdxs (maxfd : Nat) : List Nat :=
  List.range ((maxfd + 31) / 32)

/-- Sequential processing of a list of chunk indices, threading the bitset
state and accumulating the `epoll_ctl` trace in order. -/
def reconGo (cl : Nat → Bool) (maxfd : Nat) : List Nat → EvState → List CtlCall × EvState
  | [], s => ([], s)
  | fds :: rest, s =>
    let r1 := doChunk cl maxfd fds s
    let r2 := reconGo cl maxfd rest r1.2
    (r1.1 ++ r2.1, r2.2)

/-- Phase A of `epoll_poll`: the chunked desired-vs-previous reconciliation
scan over `[0, maxfd)`. -/
def epoll_reconcile (cl : Nat → Bool) (maxfd : Nat) (s : EvState) : List CtlCall × EvState :=
  reconGo cl maxfd (chunkIdxs maxfd) s

/-- Dispatch decision for one ready-event record, following the two `if`
blocks of the C code exactly: a pending-close descriptor hit inside the
read block executes `continue`, skipping the write block of the same
record as well. -/
def dispatchOne (s : EvState) (cl : Nat → Bool) (e : EpEvent) : List (Nat × Dir) :=
  if s.staticRead e.fd && cl e.fd then
    []
  else
    (if s.staticRead e.fd && (e.events &&& (EPOLLIN ||| EPOLLERR ||| EPOLLHUP) != 0) then
      [(e.fd, Dir.DIR_RD)]
    else
      [])
    ++
    (if s.staticWrite e.fd && cl e.fd then
      []
    else if s.staticWrite e.fd && (e.events &&& (EPOLLOUT ||| EPOLLERR ||| EPOLLHUP) != 0) then
      [(e.fd, Dir.DIR_WR)]
    else
      [])

/-- Phase B dispatch loop over the returned records, in buffer order.
Callbacks are opaque externals; the invocation `fdtab[fd].cb[dir].f(fd)`
is recorded as the pair `(fd, dir)`. -/
def dispatchAll (s : EvState) (cl : Nat → Bool) : List EpEvent → List (Nat × Dir)
  | [] => []
  | e :: rest => dispatchOne s cl e ++ dispatchAll s cl rest

/-- Observable outcome of one `epoll_poll` call: the `epoll_ctl` trace of
phase A, the callback invocations of phase B, and the bitset state left
behind for the next cycle. -/
structure PollResult where
  ctl : List CtlCall
  dispatched : List (Nat × Dir)
  state : EvState

/-- C `epoll_poll`: reconciliation, then `status = epoll_wait(...)`, then
the dispatch loop `for (count = 0; count < status; count++)`.  The kernel
wait is an oracle: `status` is its return value and `buf` the buffer
contents; a negative `status` runs zero dispatch iterations. -/
def epoll_poll (s : EvState) (cl : Nat → Bool) (maxfd : Nat)
    (status : Int) (buf : List EpEvent) : PollResult :=
  let r := epoll_reconcile cl maxfd s
  { ctl := r.1
    dispatched := dispatchAll r.2 cl (buf.take status.toNat)
    state := r.2 }

/-- The six resources acquired by `epoll_init`, in acquisition order:
the epoll kernel object, the ready-event buffer, and the four bitsets. -/
inductive Res where
  | epfd
  | events
  | prevR
  | prevW
  | statR
  | statW
deriving DecidableEq

/-- One resource-lifecycle event of `epoll_init`'s trace. -/
inductive InitEv where
  | acq (r : Res)
  | rel (r : Res)
deriving DecidableEq

/-- Cleanup label `fail_fd` of `epoll_init`: nothing left to release. -/
def fail_fd : List InitEv := []

/-- Cleanup label `fail_ee`: `close(epoll_fd)` then fall through. -/
def fail_ee : List InitEv := InitEv.rel .epfd :: fail_fd

/-- Cleanup label `fail_prevt`: `free(epoll_events)` then fall through. -/
def fail_prevt : List InitEv := InitEv.rel .events :: fail_ee

/-- Cleanup label `fail_pwevt`: `free(PrevReadEvent)` then fall through. -/
def fail_pwevt : List InitEv := InitEv.rel .prevR :: fail_prevt

/-- Cleanup label `fail_srevt`: `free(PrevWriteEvent)` then fall through. -/
def fail_srevt : List InitEv := InitEv.rel .prevW :: fail_pwevt

/-- Cleanup label `fail_swevt`: `free(StaticReadEvent)` then fall through. -/
def fail_swevt : List InitEv := InitEv.rel .statR :: fail_srevt

/-- C `epoll_init`, with an oracle `ok` telling which of the six
acquisitions (`epoll_create`, five `calloc`s) succeeds.  Returns the
chronological resource trace, the return value (1 success / 0 failure),
and the poller preference after the call (`p->pref` starts at `pref0`;
every failure path sets it to 0). -/
def epoll_init (ok : Res → Bool) (pref0 : Nat) : List InitEv × Nat × Nat :=
  if ok .epfd then
    if ok .events then
      if ok .prevR then
        if ok .prevW then
          if ok .statR then
            if ok .statW then
              ([.acq .epfd, .acq .events, .acq .prevR, .acq .prevW, .acq .statR, .acq .statW],
                1, pref0)
            else
              ([.acq .epfd, .acq .events, .acq .prevR, .acq .prevW, .acq .statR] ++ fail_swevt,
                0, 0)
          else
            ([.acq .epfd, .acq .events, .acq .prevR, .acq .prevW] ++ fail_srevt, 0, 0)
        else
          ([.acq .epfd, .acq .events, .acq .prevR] ++ fail_pwevt, 0, 0)
      else
        ([.acq .epfd, .acq .events] ++ fail_prevt, 0, 0)
    else
      ([.acq .epfd] ++ fail_ee, 0, 0)
  else
    ([] ++ fail_fd, 0, 0)

/-- The resources acquired in a trace, in acquisition order. -/
def acqsOf (t : List InitEv) : List Res :=
  t.filterMap fun e => match e with | .acq r => some r | .rel _ => none

/-- The resources released in a trace, in release order. -/
def relsOf (t : List InitEv) : List Res :=
  t.filterMap fun e => match e with | .rel r => some r | .acq _ => none

/-- Two bitset states agree on every bit of chunk `fds`. -/
def ChunkAgree (s t : EvState) (fds : Nat) : Prop :=
  ∀ i, fds * 32 ≤ i → i < fds * 32 + 32 →
    s.staticRead i = t.staticRead i ∧ s.staticWrite i = t.staticWrite i ∧
    s.prevRead i = t.prevRead i ∧ s.prevWrite i = t.prevWrite i

/-- Desired and previous bits of a descriptor agree. -/
def SyncedAt (s : EvState) (i : Nat) : Prop :=
  s.prevRead i = s.staticRead i ∧ s.prevWrite i = s.staticWrite i

/-- Non-threaded description of the call trace: each chunk's contribution
computed against the initial state. -/
def perChunkTrace (cl : Nat → Bool) (maxfd : Nat) (s : EvState) : List Nat → List CtlCall
  | [] => []
  | fds :: rest =>
    (if chunkChanged s fds then chunkCalls cl maxfd fds s else [])
      ++ perChunkTrace cl maxfd s rest

/-- Concrete all-empty bitset state used for evaluation. -/
def sZero : EvState := ⟨fun _ => false, fun _ => false, fun _ => false, fun _ => false⟩

/-- Concrete state: desired-read interest on descriptor 5 only, previous
state empty. -/
def sBit5 : EvState := ⟨fun i => i == 5, fun _ => false, fun _ => false, fun _ => false⟩

/-- Concrete state: desired read+write interest on descriptor 2, previous
state empty. -/
def sBit2RW : EvState := ⟨fun i => i == 2, fun i => i == 2, fun _ => false, fun _ => false⟩

/-- Concrete state: desired-read interest on descriptor 3, previous
write-registration on descriptor 3. -/
def sBit3Swap : EvState := ⟨fun i => i == 3, fun _ => false, fun _ => false, fun i => i == 3⟩

/-- Concrete state: desired-read interest on descriptor 3 only. -/
def sBit3R : EvState := ⟨fun i => i == 3, fun _ => false, fun _ => false, fun _ => false⟩

/-- Acquisition oracle failing exactly at the last bitset allocation. -/
def okButStatW : Res → Bool := fun r => match r with | .statW => false | _ => true

/-! ### Helper lemmas about the reconciliation scan -/

/-- Pointwise congruence for `List.any`. -/
theorem any_congr_list {α : Type} (f g : α → Bool) :
    ∀ l : List α, (∀ x ∈ l, f x = g x) → l.any f = l.any g
  | [], _ => rfl
  | a :: rest, h => by
    simp only [List.any_cons]
    rw [h a (List.mem_cons_self a rest),
      any_congr_list f g rest (fun x hx => h x (List.mem_cons_of_mem a hx))]

/-- Pointwise congruence for `List.filterMap`. -/
theorem filterMap_congr_list {α β : Type} (f g : α → Option β) :
    ∀ l : List α, (∀ x ∈ l, f x = g x) → l.filterMap f = l.filterMap g
  | [], _ => rfl
  | a :: rest, h => by
    simp only [List.filterMap_cons]
    rw [h a (List.mem_cons_self a rest),
      filterMap_congr_list f g rest (fun x hx => h x (List.mem_cons_of_mem a hx))]

theorem chunkAgree_refl (s : EvState) (j : Nat) : ChunkAgree s s j :=
  fun _ _ _ => ⟨rfl, rfl, rfl, rfl⟩

theorem chunkAgree_trans {s t u : EvState} {j : Nat}
    (h1 : ChunkAgree s t j) (h2 : ChunkAgree t u j) : ChunkAgree s u j := by
  intro i hi1 hi2
  obtain ⟨a1, a2, a3, a4⟩ := h1 i hi1 hi2
  obtain ⟨b1, b2, b3, b4⟩ := h2 i hi1 hi2
  exact ⟨a1.trans b1, a2.trans b2, a3.trans b3, a4.trans b4⟩

/-- The chunk-changed test only reads the chunk's own bits. -/
theorem chunkChanged_congr {s t : EvState} {fds : Nat} (h : ChunkAgree s t fds) :
    chunkChanged s fds = chunkChanged t fds := by
  unfold chunkChanged
  apply any_congr_list
  intro c hc
  have hlt : c < 32 := List.mem_range.mp hc
  obtain ⟨h1, h2, h3, h4⟩ := h (fds * 32 + c) (by omega) (by omega)
  rw [h1, h2, h3, h4]

/-- The inner loop over a chunk only reads the chunk's own bits. -/
theorem chunkCalls_congr {cl : Nat → Bool} {maxfd : Nat} {s t : EvState} {fds : Nat}
    (h : ChunkAgree s t fds) : chunkCalls cl maxfd fds s = chunkCalls cl maxfd fds t := by
  unfold chunkCalls
  apply filterMap_congr_list
  intro c hc
  have hlt : c < 32 := List.mem_range.mp hc
  obtain ⟨h1, h2, h3, h4⟩ := h (fds * 32 + c) (by omega) (by omega)
  unfold slotReg
  rw [h1, h2, h3, h4]

/-- The post-chunk word copy does not touch bits outside its own chunk. -/
theorem copyChunk_agree_out {s : EvState} {a j : Nat} (h : j ≠ a) :
    ChunkAgree (copyChunk s a) s j := by
  intro i hi1 hi2
  have hout : ¬(a * 32 ≤ i ∧ i < a * 32 + 32) := by omega
  refine ⟨rfl, rfl, ?_, ?_⟩ <;> simp [copyChunk, hout]

/-- Processing one chunk does not touch bits outside that chunk. -/
theorem doChunk_agree_out (cl : Nat → Bool) (maxfd : Nat) {s : EvState} {a j : Nat}
    (h : j ≠ a) : ChunkAgree (doChunk cl maxfd a s).2 s j := by
  unfold doChunk
  split
  · exact copyChunk_agree_out h
  · exact chunkAgree_refl s j

/-- The whole scan does not touch bits of a chunk it never processes. -/
theorem reconGo_agree_out (cl : Nat → Bool) (maxfd : Nat) :
    ∀ (l : List Nat) (s : EvState) (j : Nat), (∀ x ∈ l, x ≠ j) →
      ChunkAgree (reconGo cl maxfd l s).2 s j
  | [], s, j, _ => chunkAgree_refl s j
  | a :: rest, s, j, h => by
    simp only [reconGo]
    exact chunkAgree_trans
      (reconGo_agree_out cl maxfd rest _ j (fun x hx => h x (List.mem_cons_of_mem a hx)))
      (doChunk_agree_out cl maxfd (fun he => h a (List.mem_cons_self a rest) he.symm))

/-- Processing one chunk never mutates the desired bitsets. -/
theorem doChunk_static (cl : Nat → Bool) (maxfd a : Nat) (s : EvState) :
    (doChunk cl maxfd a s).2.staticRead = s.staticRead ∧
    (doChunk cl maxfd a s).2.staticWrite = s.staticWrite := by
  unfold doChunk
  split <;> exact ⟨rfl, rfl⟩

/-- The whole scan never mutates the desired bitsets. -/
theorem reconGo_static (cl : Nat → Bool) (maxfd : Nat) :
    ∀ (l : List Nat) (s : EvState),
      (reconGo cl maxfd l s).2.staticRead = s.staticRead ∧
      (reconGo cl maxfd l s).2.staticWrite = s.staticWrite
  | [], _ => ⟨rfl, rfl⟩
  | a :: rest, s => by
    simp only [reconGo]
    obtain ⟨h1, h2⟩ := reconGo_static cl maxfd rest (doChunk cl maxfd a s).2
    obtain ⟨g1, g2⟩ := doChunk_static cl maxfd a s
    exact ⟨h1.trans g1, h2.trans g2⟩

/-- A chunk word is unchanged iff desired and previous agree on each of its
32 bit positions. -/
theorem chunkChanged_eq_false {s : EvState} {fds : Nat} :
    chunkChanged s fds = false ↔
      ∀ c < 32, s.staticRead (fds * 32 + c) = s.prevRead (fds * 32 + c) ∧
        s.staticWrite (fds * 32 + c) = s.prevWrite (fds * 32 + c) := by
  unfold chunkChanged
  simp only [List.any_eq_false, List.mem_range, Bool.or_eq_true, not_or,
    bne_iff_ne, ne_eq, not_not]

/-- A scan over chunks that are all unchanged issues no call and leaves the
state untouched. -/
theorem reconGo_synced (cl : Nat → Bool) (maxfd : Nat) :
    ∀ (l : List Nat) (s : EvState), (∀ fds ∈ l, chunkChanged s fds = false) →
      reconGo cl maxfd l s = ([], s)
  | [], _, _ => rfl
  | a :: rest, s, h => by
    have h1 : chunkChanged s a = false := h a (List.mem_cons_self a rest)
    have h2 := reconGo_synced cl maxfd rest s
      (fun x hx => h x (List.mem_cons_of_mem a hx))
    simp [reconGo, doChunk, h1, h2]

/-- After a chunk is processed, every bit position of that chunk is
synchronized (either it already was, or the word copy made it so). -/
theorem doChunk_sync (cl : Nat → Bool) (maxfd : Nat) {s : EvState} {a : Nat} :
    ∀ i, a * 32 ≤ i → i < a * 32 + 32 → SyncedAt (doChunk cl maxfd a s).2 i := by
  intro i h1 h2
  unfold doChunk
  split
  · have hin : a * 32 ≤ i ∧ i < a * 32 + 32 := ⟨h1, h2⟩
    exact ⟨by simp [copyChunk, if_pos hin], by simp [copyChunk, if_pos hin]⟩
  · rename_i hch
    have hf : chunkChanged s a = false := by
      revert hch
      cases chunkChanged s a <;> simp
    have hptw := chunkChanged_eq_false.mp hf (i - a * 32) (by omega)
    have hi : a * 32 + (i - a * 32) = i := by omega
    rw [hi] at hptw
    exact ⟨hptw.1.symm, hptw.2.symm⟩

/-- After the scan, every bit position of every processed chunk is
synchronized. -/
theorem reconGo_sync (cl : Nat → Bool) (maxfd : Nat) :
    ∀ (l : List Nat) (s : EvState), l.Nodup →
      ∀ j ∈ l, ∀ i, j * 32 ≤ i → i < j * 32 + 32 →
        SyncedAt (reconGo cl maxfd l s).2 i
  | [], _, _, j, hj => absurd hj (List.not_mem_nil j)
  | a :: rest, s, hnd, j, hj => by
    obtain ⟨hna, hndr⟩ := List.nodup_cons.mp hnd
    intro i hi1 hi2
    simp only [reconGo]
    rcases List.mem_cons.mp hj with rfl | hjr
    · have hsync := doChunk_sync cl maxfd (s := s) (a := j) i hi1 hi2
      have hagr := reconGo_agree_out cl maxfd rest ((doChunk cl maxfd j s).2) j
        (fun x hx he => hna (he ▸ hx))
      obtain ⟨e1, e2, e3, e4⟩ := hagr i hi1 hi2
      exact ⟨e3.trans (hsync.1.trans e1.symm), e4.trans (hsync.2.trans e2.symm)⟩
    · exact reconGo_sync cl maxfd rest _ hndr j hjr i hi1 hi2

theorem perChunkTrace_congr (cl : Nat → Bool) (maxfd : Nat) {s t : EvState} :
    ∀ l : List Nat, (∀ fds ∈ l, ChunkAgree s t fds) →
      perChunkTrace cl maxfd s l = perChunkTrace cl maxfd t l
  | [], _ => rfl
  | a :: rest, h => by
    have ha := h a (List.mem_cons_self a rest)
    simp only [perChunkTrace, chunkChanged_congr ha, chunkCalls_congr ha,
      perChunkTrace_congr cl maxfd rest (fun x hx => h x (List.mem_cons_of_mem a hx))]

/-- Trace characterization: over pairwise-distinct chunk indices, the
threaded scan emits exactly each chunk's contribution evaluated on the
initial state, in chunk order. -/
theorem reconGo_trace (cl : Nat → Bool) (maxfd : Nat) :
    ∀ (l : List Nat) (s : EvState), l.Nodup →
      (reconGo cl maxfd l s).1 = perChunkTrace cl maxfd s l
  | [], _, _ => rfl
  | a :: rest, s, hnd => by
    obtain ⟨hna, hndr⟩ := List.nodup_cons.mp hnd
    simp only [reconGo, perChunkTrace]
    congr 1
    · by_cases h : chunkChanged s a <;> simp [doChunk, h]
    · rw [reconGo_trace cl maxfd rest _ hndr]
      exact perChunkTrace_congr cl maxfd rest
        (fun fds hf => doChunk_agree_out cl maxfd (fun he => hna (he ▸ hf)))

/-- A successful `fdReg` decision carries the descriptor it was made for. -/
theorem fdReg_fd {cl : Nat → Bool} {fd : Nat} {pr pw sr sw : Bool} {call : CtlCall}
    (h : fdReg cl fd pr pw sr sw = some call) : call.fd = fd := by
  unfold fdReg at h
  split at h
  · exact absurd h (by simp)
  · split at h
    · split at h
      · cases h; rfl
      · split at h
        · exact absurd h (by simp)
        · cases h; rfl
    · cases h; rfl

/-- Membership in a chunk's contribution: the call was decided by `fdReg`
at a bit position of the chunk that lies below `maxfd`. -/
theorem mem_chunkCalls {cl : Nat → Bool} {maxfd fds : Nat} {s : EvState} {x : CtlCall}
    (h : x ∈ chunkCalls cl maxfd fds s) :
    ∃ c, c < 32 ∧ fds * 32 + c < maxfd ∧
      fdReg cl (fds * 32 + c) (s.prevRead (fds * 32 + c)) (s.prevWrite (fds * 32 + c))
        (s.staticRead (fds * 32 + c)) (s.staticWrite (fds * 32 + c)) = some x := by
  obtain ⟨c, hc, hx⟩ := List.mem_filterMap.mp h
  unfold slotReg at hx
  refine ⟨c, List.mem_range.mp hc, ?_, ?_⟩ <;> by_cases hlt : fds * 32 + c < maxfd
  · exact hlt
  · simp only [if_neg hlt] at hx
    exact absurd hx (by simp)
  · simpa only [if_pos hlt] using hx
  · simp only [if_neg hlt] at hx
    exact absurd hx (by simp)

/-- Introduction form for chunk-contribution membership. -/
theorem mem_chunkCalls_intro {cl : Nat → Bool} {maxfd fds c : Nat} {s : EvState}
    {x : CtlCall} (hc : c < 32) (hlt : fds * 32 + c < maxfd)
    (h : fdReg cl (fds * 32 + c) (s.prevRead (fds * 32 + c)) (s.prevWrite (fds * 32 + c))
      (s.staticRead (fds * 32 + c)) (s.staticWrite (fds * 32 + c)) = some x) :
    x ∈ chunkCalls cl maxfd fds s := by
  refine List.mem_filterMap.mpr ⟨c, List.mem_range.mpr hc, ?_⟩
  unfold slotReg
  simpa only [if_pos hlt] using h

theorem mem_perChunkTrace {cl : Nat → Bool} {maxfd : Nat} {s : EvState} {x : CtlCall} :
    ∀ l : List Nat, x ∈ perChunkTrace cl maxfd s l →
      ∃ fds ∈ l, chunkChanged s fds = true ∧ x ∈ chunkCalls cl maxfd fds s
  | [], h => absurd h (List.not_mem_nil x)
  | a :: rest, h => by
    rcases List.mem_append.mp h with hl | hr
    · by_cases hch : chunkChanged s a
      · exact ⟨a, List.mem_cons_self a rest, hch, by simpa [if_pos hch] using hl⟩
      · simp [hch] at hl
    · obtain ⟨fds, hf, hc, hx⟩ := mem_perChunkTrace rest hr
      exact ⟨fds, List.mem_cons_of_mem a hf, hc, hx⟩

theorem mem_perChunkTrace_intro {cl : Nat → Bool} {maxfd : Nat} {s : EvState}
    {x : CtlCall} {f0 : Nat} (hch : chunkChanged s f0 = true)
    (hx : x ∈ chunkCalls cl maxfd f0 s) :
    ∀ l : List Nat, f0 ∈ l → x ∈ perChunkTrace cl maxfd s l
  | [], h => absurd h (List.not_mem_nil f0)
  | a :: rest, h => by
    rcases List.mem_cons.mp h with rfl | hr
    · exact List.mem_append.mpr (Or.inl (by simpa [if_pos hch] using hx))
    · exact List.mem_append.mpr (Or.inr (mem_perChunkTrace_intro hch hx rest hr))

theorem chunkIdxs_nodup (maxfd : Nat) : (chunkIdxs maxfd).Nodup :=
  show (List.range ((maxfd + 31) / 32)).Nodup from List.nodup_range _

theorem mem_chunkIdxs {fds maxfd : Nat} : fds ∈ chunkIdxs maxfd ↔ fds * 32 < maxfd := by
  simp only [chunkIdxs, List.mem_range]
  omega

/-- If the per-descriptor decision at `d` is "no call", the scan's trace
contains no call targeting `d`. -/
theorem trace_no_call_at (cl : Nat → Bool) (maxfd : Nat) (s : EvState) (d : Nat)
    (hnone : fdReg cl d (s.prevRead d) (s.prevWrite d) (s.staticRead d)
      (s.staticWrite d) = none) :
    ∀ x ∈ (epoll_reconcile cl maxfd s).1, x.fd ≠ d := by
  intro x hx hxd
  rw [epoll_reconcile, reconGo_trace cl maxfd _ _ (chunkIdxs_nodup maxfd)] at hx
  obtain ⟨fds, _, _, hxc⟩ := mem_perChunkTrace _ hx
  obtain ⟨c, hc, _, hreg⟩ := mem_chunkCalls hxc
  have hfd : x.fd = fds * 32 + c := fdReg_fd hreg
  have he : fds * 32 + c = d := by omega
  rw [he, hnone] at hreg
  exact absurd hreg (by simp)

/-- A descriptor whose desired and previous bits differ makes its chunk
register as changed. -/
theorem chunkChanged_of_diff {s : EvState} {d : Nat}
    (h : s.staticRead d ≠ s.prevRead d ∨ s.staticWrite d ≠ s.prevWrite d) :
    chunkChanged s (d / 32) = true := by
  unfold chunkChanged
  rw [List.any_eq_true]
  refine ⟨d % 32, List.mem_range.mpr (by omega), ?_⟩
  have he : d / 32 * 32 + d % 32 = d := by omega
  rw [he]
  rcases h with h | h <;> simp [bne_iff_ne, h]

/-- If the per-descriptor decision at `d < maxfd` issues a call and `d`'s
chunk tests as changed, that call appears in the scan's trace. -/
theorem trace_mem_of_fdReg (cl : Nat → Bool) (maxfd : Nat) (s : EvState) (d : Nat)
    (x : CtlCall) (hd : d < maxfd)
    (hx : fdReg cl d (s.prevRead d) (s.prevWrite d) (s.staticRead d)
      (s.staticWrite d) = some x)
    (hch : chunkChanged s (d / 32) = true) :
    x ∈ (epoll_reconcile cl maxfd s).1 := by
  rw [epoll_reconcile, reconGo_trace cl maxfd _ _ (chunkIdxs_nodup maxfd)]
  refine mem_perChunkTrace_intro hch ?_ (chunkIdxs maxfd) (mem_chunkIdxs.mpr (by omega))
  refine mem_chunkCalls_intro (c := d % 32) (by omega) (by omega) ?_
  have he : d / 32 * 32 + d % 32 = d := by omega
  rw [he]
  exact hx

/-- The ADD decision: previously unregistered, now wanted. -/
theorem fdReg_add (cl : Nat → Bool) (d : Nat) {sr sw : Bool} (h : (sr || sw) = true) :
    fdReg cl d false false sr sw = some ⟨CtlOp.ADD, d, evMask sr sw⟩ := by
  cases sr <;> cases sw <;> simp_all [fdReg]

/-- The MOD decision: previously registered, still wanted, with a change. -/
theorem fdReg_mod (cl : Nat → Bool) (d : Nat) {pr pw sr sw : Bool}
    (hp : (pr || pw) = true) (hs : (sr || sw) = true)
    (hch : ((sr != pr) || (sw != pw)) = true) :
    fdReg cl d pr pw sr sw = some ⟨CtlOp.MOD, d, evMask sr sw⟩ := by
  cases pr <;> cases pw <;> cases sr <;> cases sw <;> simp_all [fdReg]

/-- The DEL decision is suppressed on a pending-close descriptor. -/
theorem fdReg_del_closed (cl : Nat → Bool) (d : Nat) {pr pw : Bool}
    (hp : (pr || pw) = true) (hcl : cl d = true) :
    fdReg cl d pr pw false false = none := by
  cases pr <;> cases pw <;> simp_all [fdReg]

/-- A dispatched callback always belongs to the record's descriptor and
requires the corresponding desired bit. -/
theorem dispatchOne_mem {s : EvState} {cl : Nat → Bool} {e : EpEvent} :
    ∀ p ∈ dispatchOne s cl e,
      p.1 = e.fd ∧ (s.staticRead e.fd = true ∨ s.staticWrite e.fd = true) := by
  intro p hp
  unfold dispatchOne at hp
  split at hp
  · exact absurd hp (List.not_mem_nil p)
  · rcases List.mem_append.mp hp with h | h
    · split at h
      · rename_i hc
        rw [List.mem_singleton] at h
        subst h
        exact ⟨rfl, Or.inl (Bool.and_eq_true_iff.mp hc).1⟩
      · exact absurd h (List.not_mem_nil p)
    · split at h
      · exact absurd h (List.not_mem_nil p)
      · split at h
        · rename_i hc
          rw [List.mem_singleton] at h
          subst h
          exact ⟨rfl, Or.inr (Bool.and_eq_true_iff.mp hc).1⟩
        · exact absurd h (List.not_mem_nil p)

theorem dispatchAll_mem {s : EvState} {cl : Nat → Bool} :
    ∀ (evs : List EpEvent), ∀ p ∈ dispatchAll s cl evs,
      s.staticRead p.1 = true ∨ s.staticWrite p.1 = true
  | [], p, hp => absurd hp (List.not_mem_nil p)
  | e :: rest, p, hp => by
    rcases List.mem_append.mp hp with h | h
    · obtain ⟨h1, h2⟩ := dispatchOne_mem p h
      rw [h1]
      exact h2
    · exact dispatchAll_mem rest p h

theorem filterMap_none_nil {α β : Type} (f : α → Option β) :
    ∀ l : List α, (∀ x ∈ l, f x = none) → l.filterMap f = []
  | [], _ => rfl
  | a :: rest, h => by
    simp only [List.filterMap_cons, h a (List.mem_cons_self a rest)]
    exact filterMap_none_nil f rest (fun x hx => h x (List.mem_cons_of_mem a hx))

/-- Over pairwise-distinct inputs where at most the slot `c0` can produce a
value, a `filterMap` yields nothing or that single value. -/
theorem filterMap_almost_one {α β : Type} (f : α → Option β) (c0 : α) :
    ∀ l : List α, l.Nodup → (∀ x ∈ l, x ≠ c0 → f x = none) →
      l.filterMap f = [] ∨ l.filterMap f = (f c0).toList
  | [], _, _ => Or.inl rfl
  | a :: rest, hnd, h => by
    obtain ⟨hna, hndr⟩ := List.nodup_cons.mp hnd
    by_cases ha : a = c0
    · subst ha
      have hr : rest.filterMap f = [] :=
        filterMap_none_nil f rest
          (fun x hx => h x (List.mem_cons_of_mem a hx) (fun he => hna (he ▸ hx)))
      rcases hv : f a with _ | v
      · rw [List.filterMap_cons_none hv, hr]
        exact Or.inl rfl
      · rw [List.filterMap_cons_some hv, hr]
        exact Or.inr rfl
    · rw [List.filterMap_cons_none (h a (List.mem_cons_self a rest) ha)]
      exact filterMap_almost_one f c0 rest hndr
        (fun x hx => h x (List.mem_cons_of_mem a hx))

theorem perChunkTrace_nil {cl : Nat → Bool} {maxfd : Nat} {s : EvState} :
    ∀ l : List Nat, (∀ fds ∈ l, chunkChanged s fds = false) →
      perChunkTrace cl maxfd s l = []
  | [], _ => rfl
  | a :: rest, h => by
    simp only [perChunkTrace, h a (List.mem_cons_self a rest), Bool.false_eq_true,
      if_false, List.nil_append]
    exact perChunkTrace_nil rest (fun x hx => h x (List.mem_cons_of_mem a hx))

/-- When every chunk except possibly `f0` is unchanged, the whole trace is
empty or exactly `f0`'s contribution. -/
theorem perChunkTrace_almost_one (cl : Nat → Bool) (maxfd : Nat) (s : EvState) (f0 : Nat) :
    ∀ l : List Nat, l.Nodup → (∀ fds ∈ l, fds ≠ f0 → chunkChanged s fds = false) →
      perChunkTrace cl maxfd s l = [] ∨
        perChunkTrace cl maxfd s l =
          (if chunkChanged s f0 then chunkCalls cl maxfd f0 s else [])
  | [], _, _ => Or.inl rfl
  | a :: rest, hnd, h => by
    obtain ⟨hna, hndr⟩ := List.nodup_cons.mp hnd
    by_cases ha : a = f0
    · subst ha
      have hr : perChunkTrace cl maxfd s rest = [] :=
        perChunkTrace_nil rest
          (fun x hx => h x (List.mem_cons_of_mem a hx) (fun he => hna (he ▸ hx)))
      exact Or.inr (by simp [perChunkTrace, hr])
    · simp only [perChunkTrace, h a (List.mem_cons_self a rest) ha,
        Bool.false_eq_true, if_false, List.nil_append]
      exact perChunkTrace_almost_one cl maxfd s f0 rest hndr
        (fun x hx => h x (List.mem_cons_of_mem a hx))

/-- Every call the scan issues targets a descriptor below `maxfd`. -/
theorem reconGo_fd_lt {cl : Nat → Bool} {maxfd : Nat} :
    ∀ (l : List Nat) (s : EvState), ∀ x ∈ (reconGo cl maxfd l s).1, x.fd < maxfd
  | [], _, x, hx => absurd hx (List.not_mem_nil x)
  | a :: rest, s, x, hx => by
    simp only [reconGo] at hx
    rcases List.mem_append.mp hx with hl | hr
    · have hl' : x ∈ chunkCalls cl maxfd a s := by
        revert hl
        unfold doChunk
        split
        · exact fun hl => hl
        · intro hl
          exact absurd hl (List.not_mem_nil x)
      obtain ⟨c, _, hlt, hreg⟩ := mem_chunkCalls hl'
      have := fdReg_fd hreg
      omega
    · exact reconGo_fd_lt rest _ x hr

/-- At most one slot of chunk `k/32` can decide a call when every
descriptor other than `k` has desired equal to previous. -/
theorem chunkCalls_almost_one (cl : Nat → Bool) (maxfd k : Nat) (s : EvState)
    (hsync : ∀ i, i ≠ k →
      s.staticRead i = s.prevRead i ∧ s.staticWrite i = s.prevWrite i) :
    chunkCalls cl maxfd (k / 32) s = [] ∨
      ∃ x, chunkCalls cl maxfd (k / 32) s = [x] ∧ x.fd = k := by
  have hslots : ∀ c ∈ List.range 32, c ≠ k % 32 →
      slotReg cl maxfd (k / 32) s c = none := by
    intro c hc hne
    have hc32 : c < 32 := List.mem_range.mp hc
    unfold slotReg
    by_cases hlt : k / 32 * 32 + c < maxfd
    · rw [if_pos hlt]
      have hik : k / 32 * 32 + c ≠ k := by omega
      obtain ⟨e1, e2⟩ := hsync _ hik
      simp [fdReg, e1, e2]
    · rw [if_neg hlt]
  rcases filterMap_almost_one (slotReg cl maxfd (k / 32) s) (k % 32) (List.range 32)
    (List.nodup_range _) hslots with h | h
  · exact Or.inl h
  · rcases hv : slotReg cl maxfd (k / 32) s (k % 32) with _ | x
    · rw [hv] at h
      exact Or.inl h
    · rw [hv] at h
      refine Or.inr ⟨x, h, ?_⟩
      unfold slotReg at hv
      split at hv
      · have hfd := fdReg_fd hv
        omega
      · exact absurd hv (by simp)

/-! ### Claim theorems -/

/-- C1: Calling `poll` twice over the same descriptor range with no
intervening bitset mutation (callbacks are external and modelled as
non-mutating) issues zero `epoll_ctl` registration calls on the second
call: after the first call's reconciliation phase, the previous bitsets
equal the desired bitsets on every scanned chunk, so every chunk test
fails and the trace of the second call is empty. -/
theorem poll_idempotent_reconciliation (s : EvState) (cl1 cl2 : Nat → Bool)
    (maxfd : Nat) (st1 st2 : Int) (buf1 buf2 : List EpEvent) :
    (epoll_poll (epoll_poll s cl1 maxfd st1 buf1).state cl2 maxfd st2 buf2).ctl = [] := by
  have hpost : ∀ fds ∈ chunkIdxs maxfd,
      chunkChanged (epoll_poll s cl1 maxfd st1 buf1).state fds = false := by
    intro fds hf
    apply chunkChanged_eq_false.mpr
    intro c hc
    have hsync := reconGo_sync cl1 maxfd (chunkIdxs maxfd) s (chunkIdxs_nodup maxfd)
      fds hf (fds * 32 + c) (by omega) (by omega)
    exact ⟨hsync.1.symm, hsync.2.symm⟩
  show (epoll_reconcile cl2 maxfd (epoll_poll s cl1 maxfd st1 buf1).state).1 = []
  rw [epoll_reconcile, reconGo_synced cl2 maxfd _ _ hpost]

/-- C2: From a state in which previous equals desired everywhere except
possibly at one descriptor `k` of `[0, maxfd)`, the next `poll` issues at
most one registration call and no call for any descriptor other than
`k`. -/
theorem poll_diff_minimality (s : EvState) (cl : Nat → Bool) (maxfd k : Nat)
    (st : Int) (buf : List EpEvent) (_hk : k < maxfd)
    (hsync : ∀ i, i ≠ k →
      s.staticRead i = s.prevRead i ∧ s.staticWrite i = s.prevWrite i) :
    (epoll_poll s cl maxfd st buf).ctl.length ≤ 1 ∧
      ((epoll_poll s cl maxfd st buf).ctl.all fun c => c.fd == k) = true := by
  have htr : (epoll_poll s cl maxfd st buf).ctl =
      perChunkTrace cl maxfd s (chunkIdxs maxfd) :=
    reconGo_trace cl maxfd (chunkIdxs maxfd) s (chunkIdxs_nodup maxfd)
  have hoth : ∀ fds ∈ chunkIdxs maxfd, fds ≠ k / 32 → chunkChanged s fds = false := by
    intro fds _ hne
    apply chunkChanged_eq_false.mpr
    intro c hc
    have hik : fds * 32 + c ≠ k := by
      intro he
      exact hne (by omega)
    exact hsync _ hik
  rw [htr]
  rcases perChunkTrace_almost_one cl maxfd s (k / 32) (chunkIdxs maxfd)
    (chunkIdxs_nodup maxfd) hoth with he | he
  · rw [he]
    exact ⟨by simp, by simp⟩
  · rw [he]
    by_cases hch : chunkChanged s (k / 32) = true
    · rw [if_pos hch]
      rcases chunkCalls_almost_one cl maxfd k s hsync with h | ⟨x, hx, hfd⟩
      · rw [h]
        exact ⟨by simp, by simp⟩
      · rw [hx]
        exact ⟨by simp, by simp [hfd]⟩
    · rw [if_neg hch]
      exact ⟨by simp, by simp⟩

/-- C2 witness: only descriptor 5 changed interest (desired-read set from
an all-synchronized empty state); `poll` over `[0, 8)` issues at most one
call and only for descriptor 5. -/
theorem poll_diff_minimality_witness :
    (epoll_poll sBit5 (fun _ => false) 8 0 []).ctl.length ≤ 1 ∧
      ((epoll_poll sBit5 (fun _ => false) 8 0 []).ctl.all fun c => c.fd == 5) = true :=
  poll_diff_minimality sBit5 (fun _ => false) 8 5 0 [] (by decide)
    (fun i hi => ⟨by simp [sBit5, beq_eq_false_iff_ne, hi], rfl⟩)

/-- C3: After `__fd_clo d` (the closed-descriptor hook, clearing `d` from
all four bitsets), a subsequent `poll` issues no registration call of any
kind for `d`, and dispatches no callback for `d` even if a stale
ready-event for `d` sits in the event buffer. -/
theorem clo_suppresses_call_and_dispatch (d : Nat) (s : EvState) (cl : Nat → Bool)
    (maxfd : Nat) (st : Int) (buf : List EpEvent) :
    ((epoll_poll (__fd_clo d s) cl maxfd st buf).ctl.all fun c => c.fd != d) = true ∧
    ((epoll_poll (__fd_clo d s) cl maxfd st buf).dispatched.all
      fun p => p.1 != d) = true := by
  have hbits : (__fd_clo d s).staticRead d = false ∧
      (__fd_clo d s).staticWrite d = false ∧
      (__fd_clo d s).prevRead d = false ∧ (__fd_clo d s).prevWrite d = false := by
    refine ⟨?_, ?_, ?_, ?_⟩ <;> simp [__fd_clo]
  constructor
  · rw [List.all_eq_true]
    intro x hx
    have hnc := trace_no_call_at cl maxfd (__fd_clo d s) d
      (by rw [hbits.1, hbits.2.1, hbits.2.2.1, hbits.2.2.2]; rfl) x hx
    simpa [bne_iff_ne] using hnc
  · rw [List.all_eq_true]
    intro p hp
    have hm := dispatchAll_mem _ p hp
    have hsr : (epoll_reconcile cl maxfd (__fd_clo d s)).2.staticRead =
        (__fd_clo d s).staticRead :=
      (reconGo_static cl maxfd (chunkIdxs maxfd) (__fd_clo d s)).1
    have hsw : (epoll_reconcile cl maxfd (__fd_clo d s)).2.staticWrite =
        (__fd_clo d s).staticWrite :=
      (reconGo_static cl maxfd (chunkIdxs maxfd) (__fd_clo d s)).2
    rw [hsr, hsw] at hm
    simp only [bne_iff_ne, ne_eq]
    intro he
    rw [he] at hm
    rcases hm with h | h
    · rw [hbits.1] at h
      exact absurd h (by simp)
    · rw [hbits.2.1] at h
      exact absurd h (by simp)

/-- C4: For a descriptor with both desired-read and desired-write set and
lifecycle state open, a single ready-event record carrying only the
hangup (or error) flag makes `poll` invoke both the read callback and the
write callback exactly once each for that record. -/
theorem dual_dispatch_on_hangup (s : EvState) (cl : Nat → Bool) (maxfd : Nat)
    (d : Nat) (ev : Nat) (hr : s.staticRead d = true) (hw : s.staticWrite d = true)
    (hcl : cl d = false) (hev : ev = EPOLLHUP ∨ ev = EPOLLERR) :
    (epoll_poll s cl maxfd 1 [⟨d, ev⟩]).dispatched =
      [(d, Dir.DIR_RD), (d, Dir.DIR_WR)] := by
  have h1 : (epoll_reconcile cl maxfd s).2.staticRead = s.staticRead :=
    (reconGo_static cl maxfd (chunkIdxs maxfd) s).1
  have h2 : (epoll_reconcile cl maxfd s).2.staticWrite = s.staticWrite :=
    (reconGo_static cl maxfd (chunkIdxs maxfd) s).2
  rcases hev with rfl | rfl <;>
    simp [epoll_poll, dispatchAll, dispatchOne, h1, h2, hr, hw, hcl,
      EPOLLIN, EPOLLOUT, EPOLLERR, EPOLLHUP]

/-- C4 witness: descriptor 2 wants read and write, is open, and a lone
hangup-only event makes both callbacks fire once each. -/
theorem dual_dispatch_on_hangup_witness :
    (epoll_poll sBit2RW (fun _ => false) 4 1 [⟨2, EPOLLHUP⟩]).dispatched =
      [(2, Dir.DIR_RD), (2, Dir.DIR_WR)] :=
  dual_dispatch_on_hangup sBit2RW (fun _ => false) 4 2 EPOLLHUP (by decide) (by decide)
    rfl (Or.inl rfl)

/-- C5: If any acquisition fails during `epoll_init`, every resource
acquired before the failing step is released, in strict reverse
acquisition order (so nothing acquired is leaked and nothing never
acquired is released), the preference is zeroed and 0 is returned; on
success 1 is returned, the preference is untouched, all six resources
(the kernel object plus the five allocations) are acquired and none is
released. -/
theorem init_reverse_cleanup (ok : Res → Bool) (pref0 : Nat) :
    ((∃ r, ok r = false) →
      (epoll_init ok pref0).2.1 = 0 ∧ (epoll_init ok pref0).2.2 = 0 ∧
      relsOf (epoll_init ok pref0).1 = (acqsOf (epoll_init ok pref0).1).reverse) ∧
    ((∀ r, ok r = true) →
      (epoll_init ok pref0).2.1 = 1 ∧ (epoll_init ok pref0).2.2 = pref0 ∧
      acqsOf (epoll_init ok pref0).1 =
        [.epfd, .events, .prevR, .prevW, .statR, .statW] ∧
      relsOf (epoll_init ok pref0).1 = []) := by
  constructor
  · intro hex
    cases h1 : ok Res.epfd with
    | false => simp [epoll_init, h1, acqsOf, relsOf, fail_fd]
    | true =>
      cases h2 : ok Res.events with
      | false => simp [epoll_init, h1, h2, acqsOf, relsOf, fail_ee, fail_fd]
      | true =>
        cases h3 : ok Res.prevR with
        | false =>
          simp [epoll_init, h1, h2, h3, acqsOf, relsOf, fail_prevt, fail_ee, fail_fd]
        | true =>
          cases h4 : ok Res.prevW with
          | false =>
            simp [epoll_init, h1, h2, h3, h4, acqsOf, relsOf, fail_pwevt,
              fail_prevt, fail_ee, fail_fd]
          | true =>
            cases h5 : ok Res.statR with
            | false =>
              simp [epoll_init, h1, h2, h3, h4, h5, acqsOf, relsOf, fail_srevt,
                fail_pwevt, fail_prevt, fail_ee, fail_fd]
            | true =>
              cases h6 : ok Res.statW with
              | false =>
                simp [epoll_init, h1, h2, h3, h4, h5, h6, acqsOf, relsOf,
                  fail_swevt, fail_srevt, fail_pwevt, fail_prevt, fail_ee, fail_fd]
              | true =>
                obtain ⟨r, hr⟩ := hex
                cases r <;> simp_all
  · intro hall
    simp [epoll_init, hall Res.epfd, hall Res.events, hall Res.prevR,
      hall Res.prevW, hall Res.statR, hall Res.statW, acqsOf, relsOf]

/-- C5 witness: with the last bitset allocation failing, `epoll_init`
returns 0, zeroes the preference, and releases exactly the acquired
resources in reverse order. -/
theorem init_reverse_cleanup_witness :
    (epoll_init okButStatW 300).2.1 = 0 ∧ (epoll_init okButStatW 300).2.2 = 0 ∧
      relsOf (epoll_init okButStatW 300).1 =
        (acqsOf (epoll_init okButStatW 300).1).reverse :=
  (init_reverse_cleanup okButStatW 300).1 ⟨Res.statW, rfl⟩

/-- C6: `__fd_cond_s` returns true and sets the desired bit when it was
previously unset, and returns false leaving the state unchanged when
already set; symmetrically `__fd_cond_c` returns true and clears the bit
when previously set, and returns false without mutation when already
clear. -/
theorem cond_accessor_semantics (s : EvState) (d : Nat) (dir : Dir) :
    (dirSet s dir d = false →
      (__fd_cond_s d dir s).1 = true ∧ dirSet (__fd_cond_s d dir s).2 dir d = true) ∧
    (dirSet s dir d = true →
      (__fd_cond_s d dir s).1 = false ∧ (__fd_cond_s d dir s).2 = s) ∧
    (dirSet s dir d = true →
      (__fd_cond_c d dir s).1 = true ∧ dirSet (__fd_cond_c d dir s).2 dir d = false) ∧
    (dirSet s dir d = false →
      (__fd_cond_c d dir s).1 = false ∧ (__fd_cond_c d dir s).2 = s) := by
  refine ⟨fun h => ?_, fun h => ?_, fun h => ?_, fun h => ?_⟩ <;>
    cases dir <;>
      simp_all [__fd_cond_s, __fd_cond_c, __fd_set, __fd_clr, dirSet, setDir]

/-- C6 witness: on the empty state, `__fd_cond_s 4 DIR_RD` reports a
change and sets the bit. -/
theorem cond_accessor_semantics_witness :
    (__fd_cond_s 4 Dir.DIR_RD sZero).1 = true ∧
      dirSet (__fd_cond_s 4 Dir.DIR_RD sZero).2 Dir.DIR_RD 4 = true :=
  (cond_accessor_semantics sZero 4 Dir.DIR_RD).1 (by decide)

/-- C7 counterexample: a failed kernel wait (negative status, e.g. an
interrupted call) is NOT made observable to `poll`'s caller: with the
same state and buffer, `epoll_poll` produces exactly the same calls,
dispatches and final state for status `-1` as for a legitimate empty
ready set (status `0`) — `epoll_poll` returns nothing and checks no error
condition, so the two are indistinguishable. -/
theorem wait_failure_unobservable_cex :
    epoll_poll sBit3R (fun _ => false) 8 (-1) [⟨3, EPOLLIN⟩] =
      epoll_poll sBit3R (fun _ => false) 8 0 [⟨3, EPOLLIN⟩] := rfl

/-- C7 amended: `epoll_poll` treats a negative wait status exactly like a
zero ready count: the dispatch loop runs zero iterations and the whole
observable outcome equals that of an empty ready set; no failure
indication reaches the caller. -/
theorem wait_failure_treated_as_empty (s : EvState) (cl : Nat → Bool) (maxfd : Nat)
    (buf : List EpEvent) (st : Int) (h : st ≤ 0) :
    epoll_poll s cl maxfd st buf = epoll_poll s cl maxfd 0 buf := by
  unfold epoll_poll
  rw [Int.toNat_of_nonpos h]
  rfl

/-- C7 amended witness: status `-7` behaves exactly like status `0`. -/
theorem wait_failure_treated_as_empty_witness :
    epoll_poll sZero (fun _ => false) 4 (-7) [⟨1, EPOLLIN⟩] =
      epoll_poll sZero (fun _ => false) 4 0 [⟨1, EPOLLIN⟩] :=
  wait_failure_treated_as_empty sZero (fun _ => false) 4 [⟨1, EPOLLIN⟩] (-7) (by decide)

/-- C8: The accessors operate on the desired bitsets only and mutate at
most the targeted bit: `__fd_set`, `__fd_clr`, `__fd_cond_s` and
`__fd_cond_c` leave both previous bitsets entirely unchanged, leave the
targeted direction's desired bit of every descriptor `i ≠ d` unchanged,
and leave the whole desired bitset of every direction other than `dir`
unchanged (in particular the untargeted direction's bit of `d` itself);
`__fd_rem` leaves both previous bitsets unchanged and mutates at most the
two desired bits of `d`; `__fd_isset` never reads the previous bitsets.
Together: every bit of every bitset other than the targeted one is
unchanged.  (In this embedding the accessors' types carry no kernel-call
trace: none of them can issue a registration or wait call.) -/
theorem accessors_touch_only_target (s : EvState) (d : Nat) (dir : Dir) (i : Nat)
    (h : i ≠ d) :
    ((__fd_set d dir s).prevRead = s.prevRead ∧
      (__fd_set d dir s).prevWrite = s.prevWrite ∧
      dirSet (__fd_set d dir s) dir i = dirSet s dir i ∧
      ∀ dir2, dir2 ≠ dir → dirSet (__fd_set d dir s) dir2 = dirSet s dir2) ∧
    ((__fd_clr d dir s).prevRead = s.prevRead ∧
      (__fd_clr d dir s).prevWrite = s.prevWrite ∧
      dirSet (__fd_clr d dir s) dir i = dirSet s dir i ∧
      ∀ dir2, dir2 ≠ dir → dirSet (__fd_clr d dir s) dir2 = dirSet s dir2) ∧
    ((__fd_cond_s d dir s).2.prevRead = s.prevRead ∧
      (__fd_cond_s d dir s).2.prevWrite = s.prevWrite ∧
      dirSet (__fd_cond_s d dir s).2 dir i = dirSet s dir i ∧
      ∀ dir2, dir2 ≠ dir → dirSet (__fd_cond_s d dir s).2 dir2 = dirSet s dir2) ∧
    ((__fd_cond_c d dir s).2.prevRead = s.prevRead ∧
      (__fd_cond_c d dir s).2.prevWrite = s.prevWrite ∧
      dirSet (__fd_cond_c d dir s).2 dir i = dirSet s dir i ∧
      ∀ dir2, dir2 ≠ dir → dirSet (__fd_cond_c d dir s).2 dir2 = dirSet s dir2) ∧
    ((__fd_rem d s).prevRead = s.prevRead ∧
      (__fd_rem d s).prevWrite = s.prevWrite ∧
      (__fd_rem d s).staticRead i = s.staticRead i ∧
      (__fd_rem d s).staticWrite i = s.staticWrite i) ∧
    (∀ pr1 pw1 : FdSetT,
      __fd_isset d dir { s with prevRead := pr1, prevWrite := pw1 } =
        __fd_isset d dir s) := by
  have hset : (__fd_set d dir s).prevRead = s.prevRead ∧
      (__fd_set d dir s).prevWrite = s.prevWrite ∧
      dirSet (__fd_set d dir s) dir i = dirSet s dir i ∧
      ∀ dir2, dir2 ≠ dir → dirSet (__fd_set d dir s) dir2 = dirSet s dir2 := by
    cases dir
    · refine ⟨rfl, rfl, ?_, ?_⟩
      · simp [__fd_set, setDir, dirSet, Function.update_noteq h]
      · intro dir2 h2
        cases dir2
        · exact absurd rfl h2
        · rfl
    · refine ⟨rfl, rfl, ?_, ?_⟩
      · simp [__fd_set, setDir, dirSet, Function.update_noteq h]
      · intro dir2 h2
        cases dir2
        · rfl
        · exact absurd rfl h2
  have hclr : (__fd_clr d dir s).prevRead = s.prevRead ∧
      (__fd_clr d dir s).prevWrite = s.prevWrite ∧
      dirSet (__fd_clr d dir s) dir i = dirSet s dir i ∧
      ∀ dir2, dir2 ≠ dir → dirSet (__fd_clr d dir s) dir2 = dirSet s dir2 := by
    cases dir
    · refine ⟨rfl, rfl, ?_, ?_⟩
      · simp [__fd_clr, setDir, dirSet, Function.update_noteq h]
      · intro dir2 h2
        cases dir2
        · exact absurd rfl h2
        · rfl
    · refine ⟨rfl, rfl, ?_, ?_⟩
      · simp [__fd_clr, setDir, dirSet, Function.update_noteq h]
      · intro dir2 h2
        cases dir2
        · rfl
        · exact absurd rfl h2
  have hcs : (__fd_cond_s d dir s).2 = __fd_set d dir s ∨ (__fd_cond_s d dir s).2 = s := by
    by_cases hb : dirSet s dir d = true <;> simp [__fd_cond_s, hb]
  have hcc : (__fd_cond_c d dir s).2 = __fd_clr d dir s ∨ (__fd_cond_c d dir s).2 = s := by
    by_cases hb : dirSet s dir d = true <;> simp [__fd_cond_c, hb]
  have hcs2 : (__fd_cond_s d dir s).2.prevRead = s.prevRead ∧
      (__fd_cond_s d dir s).2.prevWrite = s.prevWrite ∧
      dirSet (__fd_cond_s d dir s).2 dir i = dirSet s dir i ∧
      ∀ dir2, dir2 ≠ dir → dirSet (__fd_cond_s d dir s).2 dir2 = dirSet s dir2 := by
    rcases hcs with he | he
    · rw [he]; exact hset
    · rw [he]; exact ⟨rfl, rfl, rfl, fun dir2 _ => rfl⟩
  have hcc2 : (__fd_cond_c d dir s).2.prevRead = s.prevRead ∧
      (__fd_cond_c d dir s).2.prevWrite = s.prevWrite ∧
      dirSet (__fd_cond_c d dir s).2 dir i = dirSet s dir i ∧
      ∀ dir2, dir2 ≠ dir → dirSet (__fd_cond_c d dir s).2 dir2 = dirSet s dir2 := by
    rcases hcc with he | he
    · rw [he]; exact hclr
    · rw [he]; exact ⟨rfl, rfl, rfl, fun dir2 _ => rfl⟩
  have hrem : (__fd_rem d s).prevRead = s.prevRead ∧
      (__fd_rem d s).prevWrite = s.prevWrite ∧
      (__fd_rem d s).staticRead i = s.staticRead i ∧
      (__fd_rem d s).staticWrite i = s.staticWrite i := by
    refine ⟨rfl, rfl, ?_, ?_⟩ <;> simp [__fd_rem, Function.update_noteq h]
  exact ⟨hset, hclr, hcs2, hcc2, hrem, fun pr1 pw1 => by cases dir <;> rfl⟩

/-- C8 witness: setting descriptor 3 for read leaves the desired-read bit
of descriptor 7 unchanged and leaves the whole desired-write bitset
(including descriptor 3's write bit) unchanged. -/
theorem accessors_touch_only_target_witness :
    dirSet (__fd_set 3 Dir.DIR_RD sZero) Dir.DIR_RD 7 = dirSet sZero Dir.DIR_RD 7 ∧
      dirSet (__fd_set 3 Dir.DIR_RD sZero) Dir.DIR_WR = dirSet sZero Dir.DIR_WR :=
  ⟨(accessors_touch_only_target sZero 3 Dir.DIR_RD 7 (by decide)).1.2.2.1,
    (accessors_touch_only_target sZero 3 Dir.DIR_RD 7 (by decide)).1.2.2.2
      Dir.DIR_WR (by decide)⟩

/-- C9: For any descriptor `d ≥ maxfd`, `poll` never issues a kernel
registration call for `d` (on this cycle or any later one, since the
statement holds for every state); yet if `d` lies in a scanned chunk
(`(d/32)*32 < maxfd`, the word holding `maxfd-1`) and that chunk changed,
`d`'s desired bits are still copied into the previous bitsets by the
post-chunk word copy, without any kernel call, so the kernel is never
told about `d` while the bookkeeping claims it is synchronized. -/
theorem out_of_range_copied_without_call (s : EvState) (cl : Nat → Bool)
    (maxfd : Nat) (st : Int) (buf : List EpEvent) (d : Nat) (hd : maxfd ≤ d) :
    ((epoll_poll s cl maxfd st buf).ctl.all fun c => c.fd != d) = true ∧
    (d / 32 * 32 < maxfd → chunkChanged s (d / 32) = true →
      (epoll_poll s cl maxfd st buf).state.prevRead d = s.staticRead d ∧
      (epoll_poll s cl maxfd st buf).state.prevWrite d = s.staticWrite d) := by
  constructor
  · rw [List.all_eq_true]
    intro x hx
    have hlt := reconGo_fd_lt (chunkIdxs maxfd) s x hx
    simp only [bne_iff_ne, ne_eq]
    omega
  · intro hin hch
    have hmem : d / 32 ∈ chunkIdxs maxfd := mem_chunkIdxs.mpr hin
    have hsync := reconGo_sync cl maxfd (chunkIdxs maxfd) s (chunkIdxs_nodup maxfd)
      (d / 32) hmem d (by omega) (by omega)
    have hst := reconGo_static cl maxfd (chunkIdxs maxfd) s
    exact ⟨hsync.1.trans (by rw [hst.1]), hsync.2.trans (by rw [hst.2])⟩

/-- C9 witness: with `maxfd = 3`, descriptor 5 sits in the (only) scanned
chunk; its fresh desired-read bit triggers the chunk, no call targets
descriptor 5, and its desired bit is copied into the previous bitset. -/
theorem out_of_range_copied_without_call_witness :
    ((epoll_poll sBit5 (fun _ => false) 3 0 []).ctl.all fun c => c.fd != 5) = true ∧
      (epoll_poll sBit5 (fun _ => false) 3 0 []).state.prevRead 5 =
        sBit5.staticRead 5 :=
  ⟨(out_of_range_copied_without_call sBit5 (fun _ => false) 3 0 [] 5 (by decide)).1,
    ((out_of_range_copied_without_call sBit5 (fun _ => false) 3 0 [] 5 (by decide)).2
      (by decide) (by decide)).1⟩

/-- C10: The pending-close lifecycle check guards only the DEL call: for a
pending-close descriptor `d < maxfd` whose interest changed, `poll` still
issues ADD (previously unregistered, now wanted) or MOD (previously
registered, still wanted in some direction); only when it is wanted in
neither direction is the call (the delete) suppressed entirely. -/
theorem stclose_guards_only_delete (s : EvState) (cl : Nat → Bool) (maxfd d : Nat)
    (st : Int) (buf : List EpEvent) (hd : d < maxfd) (hcl : cl d = true) :
    ((s.prevRead d = false ∧ s.prevWrite d = false ∧
        (s.staticRead d || s.staticWrite d) = true) →
      CtlCall.mk CtlOp.ADD d (evMask (s.staticRead d) (s.staticWrite d)) ∈
        (epoll_poll s cl maxfd st buf).ctl) ∧
    (((s.prevRead d || s.prevWrite d) = true ∧
        (s.staticRead d || s.staticWrite d) = true ∧
        ((s.staticRead d != s.prevRead d) || (s.staticWrite d != s.prevWrite d)) = true) →
      CtlCall.mk CtlOp.MOD d (evMask (s.staticRead d) (s.staticWrite d)) ∈
        (epoll_poll s cl maxfd st buf).ctl) ∧
    (((s.prevRead d || s.prevWrite d) = true ∧ s.staticRead d = false ∧
        s.staticWrite d = false) →
      ((epoll_poll s cl maxfd st buf).ctl.all fun c => c.fd != d) = true) := by
  refine ⟨fun hyp => ?_, fun hyp => ?_, fun hyp => ?_⟩
  · obtain ⟨h1, h2, h3⟩ := hyp
    apply trace_mem_of_fdReg cl maxfd s d _ hd
    · rw [h1, h2]
      exact fdReg_add cl d h3
    · apply chunkChanged_of_diff
      have h3w : s.staticRead d = true ∨ s.staticWrite d = true := by simpa using h3
      rcases h3w with hb | hb
      · exact Or.inl (by rw [hb, h1]; simp)
      · exact Or.inr (by rw [hb, h2]; simp)
  · obtain ⟨h1, h2, h3⟩ := hyp
    apply trace_mem_of_fdReg cl maxfd s d _ hd
    · exact fdReg_mod cl d h1 h2 h3
    · apply chunkChanged_of_diff
      have h3w : s.staticRead d ≠ s.prevRead d ∨ s.staticWrite d ≠ s.prevWrite d := by
        simpa using h3
      exact h3w
  · obtain ⟨h1, h2, h3⟩ := hyp
    rw [List.all_eq_true]
    intro x hx
    have hnc := trace_no_call_at cl maxfd s d
      (by rw [h2, h3]; exact fdReg_del_closed cl d h1 hcl) x hx
    simpa [bne_iff_ne] using hnc

/-- C10 witness: descriptor 3 is pending-close, previously registered for
write and now wanted for read: `poll` still issues the MOD call. -/
theorem stclose_guards_only_delete_witness :
    CtlCall.mk CtlOp.MOD 3 (evMask (sBit3Swap.staticRead 3) (sBit3Swap.staticWrite 3)) ∈
      (epoll_poll sBit3Swap (fun _ => true) 8 0 []).ctl :=
  (stclose_guards_only_delete sBit3Swap (fun _ => true) 8 3 0 [] (by decide) rfl).2.1
    ⟨by decide, by decide, by decide⟩

end EvEpoll
